import Mathlib

/-!
# Fine Press Scout — Query Understanding & Filter Resolution Engine

Shallow embedding of `src/app/lib/rag/filters.ts` and the filter-building
part of `queryBooks` in `src/app/lib/rag/query.ts`.

Strings are modelled as lists of Unicode code points (`List Nat`), so that
JavaScript's `toLowerCase`, `includes`, regex scanning, and split can be
given exact executable counterparts with provable properties.
-/

namespace FinePress

/-- A JavaScript string, as its list of Unicode code points. -/
abbrev Str := List Nat

/-- Code points of a Lean string literal (used to transcribe the source's
string literals). -/
def encode (s : String) : Str := s.data.map Char.toNat

/-- JS `toLowerCase`, restricted to the character ranges that occur in this
code base: ASCII `A`–`Z` and the Latin-1 uppercase letters `À`–`Þ`
(excluding `×`), each mapped 32 code points up.  All characters in the
alias tables are covered by these ranges. -/
def lowerChar (c : Nat) : Nat :=
  if 65 ≤ c ∧ c ≤ 90 then c + 32
  else if 192 ≤ c ∧ c ≤ 222 ∧ c ≠ 215 then c + 32
  else c

/-- JS `String.prototype.toLowerCase`. -/
def toLower (s : Str) : Str := s.map lowerChar

/-- `pat` is a literal prefix of `s`. -/
def hasPrefixNat : Str → Str → Bool
  | [], _ => true
  | _ :: _, [] => false
  | p :: ps, c :: cs => p == c && hasPrefixNat ps cs

/-- `pat` occurs somewhere in `s` (scan of every suffix). -/
def containsFrom (pat : Str) : Str → Bool
  | [] => pat.isEmpty
  | c :: rest => hasPrefixNat pat (c :: rest) || containsFrom pat rest

/-- JS `s.includes(pat)`: `pat` is a contiguous substring of `s`. -/
def strContains (s pat : Str) : Bool := containsFrom pat s

/-- JS regex `\s` on the whitespace characters this model covers
(tab, LF, VT, FF, CR, space). -/
def isSpace (c : Nat) : Bool := c == 9 || c == 10 || c == 11 || c == 12 || c == 13 || c == 32

/-- JS regex `\d`. -/
def isDigit (c : Nat) : Bool := 48 ≤ c && c ≤ 57

/-- JS regex `[A-Z]`. -/
def isUpperAZ (c : Nat) : Bool := 65 ≤ c && c ≤ 90

/-- JS regex `[a-z]`. -/
def isLowerAZ (c : Nat) : Bool := 97 ≤ c && c ≤ 122

/-- JS regex `\w` (word character, for `\b` boundaries). -/
def isWordChar (c : Nat) : Bool := isDigit c || isUpperAZ c || isLowerAZ c || c == 95

-- ── Data model (src/app/lib/types.ts) ─────────────────────────────────────

/-- The closed `EditionType` enumeration. -/
inductive EditionType where
  | Trade | Limited | Artist | Standard | Collector
  | Deluxe | Lettered | Traycased | HandNumbered | Remarqued
deriving DecidableEq, Fintype

/-- The string literal each `EditionType` value is in TypeScript. -/
def editionTypeStr : EditionType → Str
  | .Trade => encode "Trade"
  | .Limited => encode "Limited"
  | .Artist => encode "Artist"
  | .Standard => encode "Standard"
  | .Collector => encode "Collector"
  | .Deluxe => encode "Deluxe"
  | .Lettered => encode "Lettered"
  | .Traycased => encode "Traycased"
  | .HandNumbered => encode "Hand-numbered"
  | .Remarqued => encode "Remarqued"

/-- `BookDocument['availability']`: the three-valued availability state. -/
inductive Availability where
  | in_print | sold_out | preorder
deriving DecidableEq, Fintype

/-- The snake_case payload string of each availability state. -/
def availabilityStr : Availability → Str
  | .in_print => encode "in_print"
  | .sold_out => encode "sold_out"
  | .preorder => encode "preorder"

/-- A Qdrant `must` condition, one constructor per condition shape used by
the source: `match.value`, `match.text`, `match.any`, `range.lte`. -/
inductive QdrantCondition where
  | matchValue (key : Str) (value : Str)
  | matchText (key : Str) (text : Str)
  | matchAny (key : Str) (values : List Str)
  | rangeLte (key : Str) (lte : ℚ)
deriving DecidableEq

/-- The payload field a condition targets. -/
def QdrantCondition.key : QdrantCondition → Str
  | matchValue k _ => k
  | matchText k _ => k
  | matchAny k _ => k
  | rangeLte k _ => k

-- ── Alias/vocabulary tables (src/app/lib/rag/filters.ts) ──────────────────

/-- `PUBLISHER_ALIASES`: lists of lowercase aliases with the canonical
publisher string, in source order. -/
def PUBLISHER_ALIASES : List (List Str × Str) := [
  ([encode "conversation tree press", encode "conversation tree"], encode "Conversation Tree Press"),
  ([encode "subterranean press", encode "sub press", encode "subterranean"], encode "Subterranean Press"),
  ([encode "centipede press", encode "centipede"], encode "Centipede Press"),
  ([encode "curious king"], encode "Curious King"),
  ([encode "suntup press", encode "suntup"], encode "Suntup Press"),
  ([encode "midworld press", encode "midworld"], encode "Midworld Press"),
  ([encode "zagava"], encode "Zagava")]

/-- `AUTHOR_ALIAS_MAP`: surname alias → canonical full name, in insertion
order (JS object key order for non-numeric keys). -/
def AUTHOR_ALIAS_MAP : List (Str × Str) := [
  (encode "ligotti", encode "Thomas Ligotti"),
  (encode "barron", encode "Laird Barron"),
  (encode "gaiman", encode "Neil Gaiman"),
  (encode "king", encode "Stephen King"),
  (encode "straub", encode "Peter Straub"),
  (encode "watts", encode "Peter Watts"),
  (encode "mieville", encode "China Miéville"),
  (encode "miéville", encode "China Miéville"),
  (encode "vandermeer", encode "Jeff VanderMeer"),
  (encode "lansdale", encode "Joe R. Lansdale"),
  (encode "james", encode "M.R. James"),
  (encode "machen", encode "Arthur Machen"),
  (encode "blackwood", encode "Algernon Blackwood"),
  (encode "lovecraft", encode "H.P. Lovecraft")]

/-- `KEYWORD_EDITION_MAP`: lowercase phrase → canonical edition category,
in insertion order (JS `Object.keys` order). -/
def KEYWORD_EDITION_MAP : List (Str × EditionType) := [
  (encode "lettered edition", .Lettered),
  (encode "lettered copy", .Lettered),
  (encode "lettered copies", .Lettered),
  (encode "lettered", .Lettered),
  (encode "remarqued", .Remarqued),
  (encode "artist edition", .Artist),
  (encode "artist", .Artist),
  (encode "traycase edition", .Traycased),
  (encode "traycased", .Traycased),
  (encode "traycase", .Traycased),
  (encode "hand-numbered", .HandNumbered),
  (encode "hand numbered", .HandNumbered),
  (encode "limited edition", .Limited),
  (encode "limited numbered", .Limited),
  (encode "limited run", .Limited),
  (encode "numbered", .Limited),
  (encode "limited", .Limited),
  (encode "collector's edition", .Collector),
  (encode "hand-signed", .Collector),
  (encode "signed edition", .Collector),
  (encode "collector's", .Collector),
  (encode "collector", .Collector),
  (encode "signed", .Collector),
  (encode "deluxe edition", .Deluxe),
  (encode "deluxe", .Deluxe),
  (encode "trade edition", .Trade),
  (encode "trade", .Trade),
  (encode "standard", .Standard)]

/-- `GENRE_VOCABULARY`, in source order (multi-word phrases first). -/
def GENRE_VOCABULARY : List Str := [
  encode "cosmic horror",
  encode "weird fiction",
  encode "dark fantasy",
  encode "literary horror",
  encode "science fiction",
  encode "lovecraftian",
  encode "sci-fi",
  encode "horror",
  encode "fantasy",
  encode "occult",
  encode "gothic",
  encode "supernatural",
  encode "thriller",
  encode "dark fiction"]

/-- `AVAILABILITY_MAP`: ordered groups of trigger phrases, specific states
before `in_print`. -/
def AVAILABILITY_MAP : List (List Str × Availability) := [
  ([encode "pre-order", encode "preorder", encode "pre order", encode "coming soon", encode "on order"], .preorder),
  ([encode "sold out", encode "sold-out", encode "out of print", encode "out of stock", encode "unavailable"], .sold_out),
  ([encode "in print", encode "in-print", encode "available now", encode "available", encode "in stock"], .in_print)]

/-- `FILTER_SLOT_COUNT`: total number of filter dimensions. -/
def FILTER_SLOT_COUNT : Nat := 6

-- ── Composable helper functions ───────────────────────────────────────────

/-- The nested loop shared by `extractPublisher` and `extractAvailability`:
return the canonical value of the first table entry one of whose aliases
occurs in `q`. -/
def scanAliasTable {α : Type} (q : Str) : List (List Str × α) → Option α
  | [] => none
  | (aliases, canonical) :: rest =>
    if aliases.any (fun a => strContains q a) then some canonical
    else scanAliasTable q rest

/-- `extractPublisher`. -/
def extractPublisher (query : Str) : Option Str :=
  scanAliasTable (toLower query) PUBLISHER_ALIASES

/-- `extractAvailability`. -/
def extractAvailability (query : Str) : Option Availability :=
  scanAliasTable (toLower query) AVAILABILITY_MAP

/-- Stable insert for a descending-by-length order (an earlier element is
placed before later elements of equal length). -/
def insertLenDesc (x : Str) : List Str → List Str
  | [] => [x]
  | y :: ys => if x.length < y.length then y :: insertLenDesc x ys else x :: y :: ys

/-- Stable sort by descending string length — the behaviour of JS
`Array.prototype.sort` (stable per ES2019) with comparator
`(a, b) => b.length - a.length`. -/
def sortByLenDesc (l : List Str) : List Str := l.foldr insertLenDesc []

/-- First-match JS object lookup (exact key equality). -/
def lookupStr {α : Type} (key : Str) : List (Str × α) → Option α
  | [] => none
  | (k, v) :: rest => if k == key then some v else lookupStr key rest

/-- `Object.keys(KEYWORD_EDITION_MAP).sort((a, b) => b.length - a.length)`. -/
def editionSortedKeys : List Str := sortByLenDesc (KEYWORD_EDITION_MAP.map Prod.fst)

/-- The loop body of `extractEditionType`: first sorted key occurring in `q`
wins; its map entry is returned. -/
def firstEditionKey (q : Str) : List Str → Option EditionType
  | [] => none
  | k :: ks => if strContains q k then lookupStr k KEYWORD_EDITION_MAP else firstEditionKey q ks

/-- `extractEditionType`. -/
def extractEditionType (query : Str) : Option EditionType :=
  firstEditionKey (toLower query) editionSortedKeys

/-- The loop of `extractGenreTags`: accumulate every vocabulary phrase found
in `q`, skipping a phrase when an already-accepted phrase contains it or is
contained in it. -/
def genreScan (q : Str) : List Str → List Str → List Str
  | [], matched => matched
  | g :: rest, matched =>
    if strContains q g && !(matched.any (fun m => strContains m g || strContains g m)) then
      genreScan q rest (matched ++ [g])
    else
      genreScan q rest matched

/-- `extractGenreTags`. -/
def extractGenreTags (query : Str) : Option (List Str) :=
  let matched := genreScan (toLower query) GENRE_VOCABULARY []
  if 0 < matched.length then some matched else none

-- ── Price extractor ──────────────────────────────────────────────────────
-- The two regexes of `extractPrice` have the `i` flag; matching their
-- all-lowercase literals against the lowercased query is equivalent.

/-- Greedy `\s*`. -/
def skipSpaces : Str → Str
  | [] => []
  | c :: rest => if isSpace c then skipSpaces rest else c :: rest

/-- Greedy `\s+`: at least one whitespace character, then skip the run. -/
def spaces1 (s : Str) : Option Str :=
  match s with
  | [] => none
  | c :: rest => if isSpace c then some (skipSpaces rest) else none

/-- Match the literal word `w`, returning the remaining suffix. -/
def afterLit (w : String) (s : Str) : Option Str :=
  if hasPrefixNat (encode w) s then some (s.drop (encode w).length) else none

/-- Match literal words separated by `\s+` (e.g. `less\s+than`). -/
def afterWords : List String → Str → Option Str
  | [], s => some s
  | [w], s => afterLit w s
  | w :: ws, s => (afterLit w s).bind (fun r => (spaces1 r).bind (afterWords ws))

/-- `[£$€]`. -/
def isCurrencySymbol (c : Nat) : Bool := c == 163 || c == 36 || c == 8364

/-- Digit run → natural number value. -/
def digitsToNat (ds : Str) : Nat := ds.foldl (fun acc d => acc * 10 + (d - 48)) 0

/-- Greedy `(\d+(?:\.\d+)?)` with `parseFloat` of the capture (exact rational
value; the source's `isNaN` guard can never fire on this shape).  Returns
the value and the suffix after the capture. -/
def parseNumberWithRest (s : Str) : Option (ℚ × Str) :=
  match s with
  | [] => none
  | c :: _ =>
    if isDigit c then
      let intDigits := s.takeWhile isDigit
      let rest := s.dropWhile isDigit
      let intVal : ℚ := digitsToNat intDigits
      match rest with
      | 46 :: r2 =>
        let fracDigits := r2.takeWhile isDigit
        if fracDigits.isEmpty then some (intVal, rest)
        else some (intVal + (digitsToNat fracDigits : ℚ) / (10 ^ fracDigits.length), r2.dropWhile isDigit)
      | _ => some (intVal, rest)
    else none

/-- The candidate suffixes after the pass-1 trigger alternation
`under|less\s+than|below|cheaper\s+than|up\s+to|no\s+more\s+than|at\s+most|max(?:imum)?|budget\s+(?:of|is|:)|<`,
in the order a backtracking engine tries them (greedy `(?:imum)?` puts
`maximum` before `max`). -/
def triggerEnds (s : Str) : List Str :=
  [afterLit "under" s,
   afterWords ["less", "than"] s,
   afterLit "below" s,
   afterWords ["cheaper", "than"] s,
   afterWords ["up", "to"] s,
   afterWords ["no", "more", "than"] s,
   afterWords ["at", "most"] s,
   afterLit "maximum" s,
   afterLit "max" s,
   (afterLit "budget" s).bind (fun r => (spaces1 r).bind (fun r2 =>
     match afterLit "of" r2 with
     | some r3 => some r3
     | none => match afterLit "is" r2 with
       | some r3 => some r3
       | none => afterLit ":" r2)),
   afterLit "<" s].filterMap id

/-- After a pass-1 trigger: `\s*[£$€]?\s*(\d+(?:\.\d+)?)`.  The regex's
trailing `\s*(?:dollars?|usd|eur|gbp|pounds?)?` is entirely optional and
follows the capture, so it can affect neither match success nor the
captured value; it is omitted. -/
def afterTrigger (s : Str) : Option ℚ :=
  let s1 := skipSpaces s
  let s2 := match s1 with
    | [] => s1
    | c :: rest => if isCurrencySymbol c then skipSpaces rest else s1
  (parseNumberWithRest s2).map Prod.fst

/-- Try the whole pass-1 pattern anchored at the start of `s`. -/
def tryPass1At (s : Str) : Option ℚ :=
  (triggerEnds s).foldr (fun r acc => match afterTrigger r with
    | some v => some v
    | none => acc) none

/-- Pass-1 regex `.match`: leftmost position at which the pattern matches. -/
def scanPass1 : Str → Option ℚ
  | [] => none
  | c :: rest =>
    match tryPass1At (c :: rest) with
    | some v => some v
    | none => scanPass1 rest

/-- The candidate suffixes after `(?:dollars?|usd|eur|gbp|pounds?)`, greedy
`s?` first. -/
def currencyWordEnds (s : Str) : List Str :=
  [afterLit "dollars" s, afterLit "dollar" s,
   afterLit "usd" s, afterLit "eur" s, afterLit "gbp" s,
   afterLit "pounds" s, afterLit "pound" s].filterMap id

/-- `(?:or\s+(?:less|under)|max)` as a prefix of `s`. -/
def qualMatches (s : Str) : Bool :=
  (match afterLit "or" s with
   | some r =>
     match spaces1 r with
     | some r2 => hasPrefixNat (encode "less") r2 || hasPrefixNat (encode "under") r2
     | none => false
   | none => false)
  || hasPrefixNat (encode "max") s

/-- `\s+` then the qualifier. -/
def spacesThenQual (s : Str) : Bool :=
  match s with
  | [] => false
  | c :: rest => isSpace c && qualMatches (skipSpaces rest)

/-- Try the whole pass-2 pattern
`[£$€]\s*(\d+(?:\.\d+)?)\s*(?:dollars?|usd|eur|gbp|pounds?)?\s+(?:or\s+(?:less|under)|max)`
anchored at the start of `s`.  The optional currency word is tried both
present (each greedy variant) and absent, as a backtracking engine does. -/
def tryPass2At (s : Str) : Option ℚ :=
  match s with
  | [] => none
  | c :: rest =>
    if isCurrencySymbol c then
      match parseNumberWithRest (skipSpaces rest) with
      | some (v, a) =>
        let b := skipSpaces a
        if (currencyWordEnds b).any spacesThenQual
            || ((match a with | [] => false | c2 :: _ => isSpace c2) && qualMatches b) then
          some v
        else none
      | none => none
    else none

/-- Pass-2 regex `.match`: leftmost position at which the pattern matches. -/
def scanPass2 : Str → Option ℚ
  | [] => none
  | c :: rest =>
    match tryPass2At (c :: rest) with
    | some v => some v
    | none => scanPass2 rest

/-- `extractPrice`: pass 1 (trigger first), then pass 2 (reversed). -/
def extractPrice (query : Str) : Option ℚ :=
  let lq := toLower query
  match scanPass1 lq with
  | some v => some v
  | none => scanPass2 lq

-- ── Author extractor ─────────────────────────────────────────────────────

/-- Greedy `[A-Z][a-z]+`: a capitalised word of length at least two.
Returns the word and the remaining suffix. -/
def parseCapWord (s : Str) : Option (Str × Str) :=
  match s with
  | [] => none
  | c :: rest =>
    if isUpperAZ c then
      let lows := rest.takeWhile isLowerAZ
      if lows.isEmpty then none else some (c :: lows, rest.dropWhile isLowerAZ)
    else none

/-- Greedy `(?:\s+[A-Z][a-z]+)*`: zero or more further capitalised words,
each preceded by a (verbatim captured) whitespace run.  `fuel` bounds the
recursion; each successful step consumes at least two characters, so
`s.length` fuel is always enough.  Returns the captured text and the
suffix after it. -/
def munchNameTail : Nat → Str → Str × Str
  | 0, s => ([], s)
  | fuel + 1, s =>
    let sp := s.takeWhile isSpace
    if sp.isEmpty then ([], s)
    else
      match parseCapWord (s.dropWhile isSpace) with
      | none => ([], s)
      | some (w, rest) =>
        let (tail, rest2) := munchNameTail fuel rest
        (sp ++ w ++ tail, rest2)

/-- `\bby\s+([A-Z][a-z]+(?:\s+[A-Z][a-z]+)+)` anchored at the start of `s`
(`boundary` says whether a word boundary precedes `s`).  The `+` on the
name-tail group requires at least two capitalised words. -/
def tryByAt (boundary : Bool) (s : Str) : Option Str :=
  if boundary then
    match afterLit "by" s with
    | none => none
    | some r =>
      match spaces1 r with
      | none => none
      | some r2 =>
        match parseCapWord r2 with
        | none => none
        | some (w, rest) =>
          let (tail, _) := munchNameTail rest.length rest
          if tail.isEmpty then none else some (w ++ tail)
  else none

/-- `titles?\b` as a prefix of `s` (greedy `s?`, then a word boundary). -/
def titlesWordAt (s : Str) : Bool :=
  match afterLit "titles" s with
  | some r =>
    (match r with | [] => true | c :: _ => !isWordChar c)
    || (match afterLit "title" s with
        | some r2 => (match r2 with | [] => true | c :: _ => !isWordChar c)
        | none => false)
  | none =>
    match afterLit "title" s with
    | some r2 => (match r2 with | [] => true | c :: _ => !isWordChar c)
    | none => false

/-- `\b([A-Z][a-z]+(?:\s+[A-Z][a-z]+)+)\s+titles?\b` anchored at the start
of `s`.  No backtracking into the greedy name tail is needed: the word
after the name starts with a lowercase `t`, which `[A-Z]` can never have
consumed. -/
def tryTitlesAt (boundary : Bool) (s : Str) : Option Str :=
  if boundary then
    match parseCapWord s with
    | none => none
    | some (w, rest) =>
      let (tail, rest2) := munchNameTail rest.length rest
      if tail.isEmpty then none
      else
        match spaces1 rest2 with
        | none => none
        | some r3 => if titlesWordAt r3 then some (w ++ tail) else none
  else none

/-- Leftmost-match scan for the `by` pattern, tracking the preceding
character for the `\b` boundary. -/
def scanBy (prev : Option Nat) : Str → Option Str
  | [] => none
  | c :: rest =>
    match tryByAt (match prev with | none => true | some p => !isWordChar p) (c :: rest) with
    | some name => some name
    | none => scanBy (some c) rest

/-- Leftmost-match scan for the `titles` pattern. -/
def scanTitles (prev : Option Nat) : Str → Option Str
  | [] => none
  | c :: rest =>
    match tryTitlesAt (match prev with | none => true | some p => !isWordChar p) (c :: rest) with
    | some name => some name
    | none => scanTitles (some c) rest

/-- JS `split(/\s+/)` on the lowercased query, modelled per character: a
run of `n` whitespace characters yields `n - 1` extra empty tokens that JS
would not produce, but every empty token fails the alias lookup exactly as
JS's (at most two) empty edge tokens do, so the extractor's result is
unchanged. -/
def splitWs : Str → List Str
  | [] => [[]]
  | c :: rest =>
    if isSpace c then [] :: splitWs rest
    else
      match splitWs rest with
      | [] => [[c]]
      | t :: ts => (c :: t) :: ts

/-- `word.replace(/[^a-zÀ-ɏ]/g, '')`. -/
def cleanWord (w : Str) : Str :=
  w.filter (fun c => (97 ≤ c && c ≤ 122) || (192 ≤ c && c ≤ 591))

/-- The surname-alias loop of `extractAuthor`. -/
def firstAliasHit : List Str → Option Str
  | [] => none
  | w :: ws =>
    match lookupStr (cleanWord w) AUTHOR_ALIAS_MAP with
    | some full => some full
    | none => firstAliasHit ws

/-- `extractAuthor`: the `by` pattern, then the `titles` pattern, then the
surname-alias scan. -/
def extractAuthor (query : Str) : Option Str :=
  match scanBy none query with
  | some name => some name
  | none =>
    match scanTitles none query with
    | some name => some name
    | none => firstAliasHit (splitWs (toLower query))

-- ── Main export: extractFilters ──────────────────────────────────────────

/-- `ExtractedFilters`: the structured summary; a TS field absent from the
object is `none` (each field is spread in exactly when its extractor
returned a value, and every returned value is truthy). -/
structure ExtractedFilters where
  publisher : Option Str
  author : Option Str
  editionType : Option EditionType
  maxPrice : Option ℚ
  availability : Option Availability
  genreTags : Option (List Str)
deriving DecidableEq

/-- `QueryAnalysis`. -/
structure QueryAnalysis where
  originalQuery : Str
  extractedFilters : ExtractedFilters
  confidence : ℚ
deriving DecidableEq

/-- `ExtractFiltersResult`. -/
structure ExtractFiltersResult where
  qdrantMust : List QdrantCondition
  analysis : QueryAnalysis
deriving DecidableEq

/-- The six conditional `qdrantMust.push(...)` calls of `extractFilters`,
in source order. -/
def slotConds (publisher author : Option Str) (editionType : Option EditionType)
    (maxPrice : Option ℚ) (availability : Option Availability)
    (genreTags : Option (List Str)) : List QdrantCondition :=
  (match publisher with
   | some p => [.matchValue (encode "publisher") p]
   | none => []) ++
  (match author with
   | some a => [.matchText (encode "author") a]
   | none => []) ++
  (match editionType with
   | some e => [.matchValue (encode "edition_type") (editionTypeStr e)]
   | none => []) ++
  (match maxPrice with
   | some m => [.rangeLte (encode "price") m]
   | none => []) ++
  (match availability with
   | some a => [.matchValue (encode "availability") (availabilityStr a)]
   | none => []) ++
  (match genreTags with
   | some g => [.matchAny (encode "genre_tags") g]
   | none => [])

/-- `[publisher, author, editionType, maxPrice, availability, genreTags]
.filter((v) => v !== undefined).length`. -/
def populatedOf (publisher author : Option Str) (editionType : Option EditionType)
    (maxPrice : Option ℚ) (availability : Option Availability)
    (genreTags : Option (List Str)) : Nat :=
  [publisher.isSome, author.isSome, editionType.isSome,
   maxPrice.isSome, availability.isSome, genreTags.isSome].count true

/-- `extractFilters`: run all six extractors, assemble the condition list,
the summary, and `confidence = populatedCount / FILTER_SLOT_COUNT`. -/
def extractFilters (query : Str) : ExtractFiltersResult :=
  let publisher := extractPublisher query
  let author := extractAuthor query
  let editionType := extractEditionType query
  let maxPrice := extractPrice query
  let availability := extractAvailability query
  let genreTags := extractGenreTags query
  let qdrantMust := slotConds publisher author editionType maxPrice availability genreTags
  let populatedCount := populatedOf publisher author editionType maxPrice availability genreTags
  { qdrantMust := qdrantMust
    analysis :=
      { originalQuery := query
        extractedFilters :=
          { publisher := publisher, author := author, editionType := editionType
            maxPrice := maxPrice, availability := availability, genreTags := genreTags }
        confidence := (populatedCount : ℚ) / (FILTER_SLOT_COUNT : ℚ) } }

/-- The number of populated fields of an `ExtractedFilters`. -/
def countPopulated (ef : ExtractedFilters) : Nat :=
  [ef.publisher.isSome, ef.author.isSome, ef.editionType.isSome,
   ef.maxPrice.isSome, ef.availability.isSome, ef.genreTags.isSome].count true

-- ── Query resolver (src/app/lib/rag/query.ts) ────────────────────────────

/-- JS `s.trim()`. -/
def trim (s : Str) : Str :=
  ((s.dropWhile isSpace).reverse.dropWhile isSpace).reverse

/-- `resolveEdition`: exact whole-keyword lookup of the lowercased, trimmed
keyword in the edition-synonym map. -/
def resolveEdition (keyword : Str) : Option EditionType :=
  lookupStr (trim (toLower keyword)) KEYWORD_EDITION_MAP

/-- The default `availability = in_print` condition. -/
def inPrintCond : QdrantCondition :=
  .matchValue (encode "availability") (encode "in_print")

/-- A condition targets the `availability` field
(`(c) => c.key === 'availability'`). -/
def isAvailabilityCond (c : QdrantCondition) : Bool :=
  c.key == encode "availability"

/-- The explicit-parameters branch of `queryBooks`: always `in_print`; a
strictly positive budget adds a price ceiling; a truthy keyword (the JS
test `if (keyword)` is false exactly for the empty string) that resolves
adds an edition condition. -/
def explicitMust (budget : Option ℚ) (keyword : Option Str) : List QdrantCondition :=
  let base := [inPrintCond]
  let withBudget :=
    match budget with
    | some b => if 0 < b then base ++ [.rangeLte (encode "price") b] else base
    | none => base
  match keyword with
  | some k =>
    if !k.isEmpty then
      match resolveEdition k with
      | some e => withBudget ++ [.matchValue (encode "edition_type") (editionTypeStr e)]
      | none => withBudget
    else withBudget
  | none => withBudget

/-- The NLP-extraction branch of `queryBooks`. -/
def nlpMust (query : Str) : List QdrantCondition :=
  let must := (extractFilters query).qdrantMust
  if must.any isAvailabilityCond then must else must ++ [inPrintCond]

/-- The filter-building portion of `queryBooks`: the `must` list it sends to
the search backend.  `budget`/`keyword` are `undefined` when `none`.  The
embedding-query construction and the Qdrant/embedding I/O around this list
are external collaborators and are not modelled. -/
def queryBooksMust (query : Str) (budget : Option ℚ) (keyword : Option Str) :
    List QdrantCondition :=
  if budget.isSome || keyword.isSome then explicitMust budget keyword
  else nlpMust query

/-- The canonical field order of the assembled conditions. -/
def canonicalFieldOrder : List Str :=
  [encode "publisher", encode "author", encode "edition_type",
   encode "price", encode "availability", encode "genre_tags"]

-- ═══════════════════════ Theorems ════════════════════════════════════════

-- ── Shared helper lemmas ─────────────────────────────────────────────────

theorem extractFilters_eq (q : Str) :
    extractFilters q =
      { qdrantMust := slotConds (extractPublisher q) (extractAuthor q) (extractEditionType q)
          (extractPrice q) (extractAvailability q) (extractGenreTags q)
        analysis :=
          { originalQuery := q
            extractedFilters :=
              ⟨extractPublisher q, extractAuthor q, extractEditionType q,
               extractPrice q, extractAvailability q, extractGenreTags q⟩
            confidence :=
              ((populatedOf (extractPublisher q) (extractAuthor q) (extractEditionType q)
                  (extractPrice q) (extractAvailability q) (extractGenreTags q) : ℚ)
                / (FILTER_SLOT_COUNT : ℚ)) } } := rfl

theorem countPopulated_mk (p a : Option Str) (e : Option EditionType) (m : Option ℚ)
    (av : Option Availability) (g : Option (List Str)) :
    countPopulated ⟨p, a, e, m, av, g⟩ = populatedOf p a e m av g := rfl

theorem populatedOf_le_six (p a : Option Str) (e : Option EditionType) (m : Option ℚ)
    (av : Option Availability) (g : Option (List Str)) :
    populatedOf p a e m av g ≤ 6 := by
  cases p <;> cases a <;> cases e <;> cases m <;> cases av <;> cases g <;>
    simp [populatedOf]

theorem slotConds_length (p a : Option Str) (e : Option EditionType) (m : Option ℚ)
    (av : Option Availability) (g : Option (List Str)) :
    (slotConds p a e m av g).length = populatedOf p a e m av g := by
  cases p <;> cases a <;> cases e <;> cases m <;> cases av <;> cases g <;> rfl

theorem slot_cast : (FILTER_SLOT_COUNT : ℚ) = 6 := by
  norm_num [FILTER_SLOT_COUNT]

theorem div_six_mem (n : Nat) (h : n ≤ 6) :
    (n : ℚ) / 6 ∈ ({0, 1/6, 2/6, 3/6, 4/6, 5/6, 1} : Set ℚ) := by
  interval_cases n <;> norm_num

-- ── C1 ───────────────────────────────────────────────────────────────────

/-- C1: For every query string, the confidence of the `QueryAnalysis`
returned by `extractFilters` equals the number of populated
`ExtractedFilters` fields divided by six (hence it is reproducible from
the `ExtractedFilters` alone), and consequently it always lies in
{0, 1/6, 2/6, 3/6, 4/6, 5/6, 1}. -/
theorem confidence_is_coverage_ratio (q : Str) :
    (extractFilters q).analysis.confidence
        = (countPopulated (extractFilters q).analysis.extractedFilters : ℚ) / 6
    ∧ (extractFilters q).analysis.confidence
        ∈ ({0, 1/6, 2/6, 3/6, 4/6, 5/6, 1} : Set ℚ) := by
  rw [extractFilters_eq]
  constructor
  · simp only [countPopulated_mk, slot_cast]
  · simp only [countPopulated_mk, slot_cast]
    exact div_six_mem _ (populatedOf_le_six _ _ _ _ _ _)

-- ── C2 ───────────────────────────────────────────────────────────────────

theorem slotConds_keys_sublist (p a : Option Str) (e : Option EditionType) (m : Option ℚ)
    (av : Option Availability) (g : Option (List Str)) :
    ((slotConds p a e m av g).map QdrantCondition.key).Sublist canonicalFieldOrder := by
  cases p <;> cases a <;> cases e <;> cases m <;> cases av <;> cases g <;>
    simp [slotConds, canonicalFieldOrder, QdrantCondition.key] <;>
    decide

/-- C2: For every query string, `extractFilters` terminates (it is a total
function) and returns a `qdrantMust` list whose length equals the number of
populated fields of the paired `ExtractedFilters`, with the conditions in
the fixed canonical field order publisher, author, edition type, price,
availability, genre tags. -/
theorem qdrantMust_length_and_order (q : Str) :
    (extractFilters q).qdrantMust.length
        = countPopulated (extractFilters q).analysis.extractedFilters
    ∧ ((extractFilters q).qdrantMust.map QdrantCondition.key).Sublist canonicalFieldOrder := by
  rw [extractFilters_eq]
  exact ⟨by simp only [countPopulated_mk, slotConds_length],
         slotConds_keys_sublist _ _ _ _ _ _⟩

-- ── C3 ───────────────────────────────────────────────────────────────────

theorem slotConds_filter_avail (p a : Option Str) (e : Option EditionType) (m : Option ℚ)
    (av : Option Availability) (g : Option (List Str)) :
    (slotConds p a e m av g).filter isAvailabilityCond
      = match av with
        | some x => [QdrantCondition.matchValue (encode "availability") (availabilityStr x)]
        | none => [] := by
  cases p <;> cases a <;> cases e <;> cases m <;> cases av <;> cases g <;> rfl

theorem slotConds_any_avail (p a : Option Str) (e : Option EditionType) (m : Option ℚ)
    (av : Option Availability) (g : Option (List Str)) :
    (slotConds p a e m av g).any isAvailabilityCond = av.isSome := by
  cases p <;> cases a <;> cases e <;> cases m <;> cases av <;> cases g <;> rfl

/-- C3: On the NLP-extraction path (both `budget` and `keyword` absent), the
conditions are those produced by `extractFilters`; the availability
conditions among them are exactly those the availability extractor found
(so `extractFilters` never adds a default one), and the default `in_print`
condition is injected if and only if the assembled conditions contain no
availability condition — equivalently, exactly when the availability
extractor found nothing. -/
theorem nlp_path_default_injection (q : Str) :
    ((extractFilters q).qdrantMust.filter isAvailabilityCond
       = match extractAvailability q with
         | some x => [QdrantCondition.matchValue (encode "availability") (availabilityStr x)]
         | none => [])
    ∧ (queryBooksMust q none none
       = if (extractFilters q).qdrantMust.any isAvailabilityCond
         then (extractFilters q).qdrantMust
         else (extractFilters q).qdrantMust ++ [inPrintCond])
    ∧ (queryBooksMust q none none
       = (extractFilters q).qdrantMust ++
           (match extractAvailability q with
            | some _ => []
            | none => [inPrintCond])) := by
  refine ⟨by rw [extractFilters_eq]; exact slotConds_filter_avail _ _ _ _ _ _, rfl, ?_⟩
  show (if (extractFilters q).qdrantMust.any isAvailabilityCond
        then (extractFilters q).qdrantMust
        else (extractFilters q).qdrantMust ++ [inPrintCond]) = _
  rw [extractFilters_eq]
  rw [slotConds_any_avail]
  cases extractAvailability q <;> simp

-- ── C4 ───────────────────────────────────────────────────────────────────

theorem editionTypeStr_injective (x y : EditionType)
    (h : editionTypeStr x = editionTypeStr y) : x = y := by
  revert h
  revert x y
  decide

theorem explicit_path_taken (q : Str) (budget : Option ℚ) (keyword : Option Str)
    (h : budget.isSome ∨ keyword.isSome) :
    queryBooksMust q budget keyword = explicitMust budget keyword := by
  have hb : (budget.isSome || keyword.isSome) = true := by
    rcases h with h | h <;> simp [h]
  simp [queryBooksMust, hb]

/-- C4 (counterexample): a budget *is* given (`0`), yet the explicit path
produces no price-ceiling condition — only the availability default. -/
theorem budget_zero_yields_no_price_condition :
    queryBooksMust (encode "fine press books") (some 0) none = [inPrintCond] := by
  decide

/-- C4 (amended): on the explicit-parameters path, an `in_print`
availability condition is always included; whenever a *strictly positive*
budget is given, a price-ceiling (`lte`) condition with that budget value
is added, while a zero or negative budget adds no price condition; and a
keyword adds an `edition_type` condition exactly when it resolves through
the edition-synonym table by exact whole-keyword lookup (lowercased,
trimmed — `resolveEdition`), never by substring scan. -/
theorem explicitMust_eq (budget : Option ℚ) (keyword : Option Str) :
    explicitMust budget keyword =
      [inPrintCond]
      ++ (match budget with
          | some b => if 0 < b then [QdrantCondition.rangeLte (encode "price") b] else []
          | none => [])
      ++ (match keyword with
          | some k =>
            if !k.isEmpty then
              match resolveEdition k with
              | some e => [QdrantCondition.matchValue (encode "edition_type") (editionTypeStr e)]
              | none => []
            else []
          | none => []) := by
  rcases budget with _ | b <;> rcases keyword with _ | k <;>
    simp only [explicitMust] <;>
    first
      | rfl
      | (split_ifs <;> (try cases resolveEdition k) <;> simp)

/-- C4 (amended): on the explicit-parameters path, an `in_print`
availability condition is always included; whenever a *strictly positive*
budget is given, a price-ceiling (`lte`) condition with that budget value
is added, while a zero or negative budget adds no price condition; and a
keyword adds an `edition_type` condition exactly when it resolves through
the edition-synonym table by exact whole-keyword lookup (lowercased,
trimmed — `resolveEdition`), never by substring scan. -/
theorem explicit_path_resolution (q : Str) (budget : Option ℚ) (keyword : Option Str)
    (h : budget.isSome ∨ keyword.isSome) :
    inPrintCond ∈ queryBooksMust q budget keyword
    ∧ (∀ b : ℚ, budget = some b → 0 < b →
        QdrantCondition.rangeLte (encode "price") b ∈ queryBooksMust q budget keyword)
    ∧ (∀ b : ℚ, budget = some b → ¬ 0 < b →
        ∀ c ∈ queryBooksMust q budget keyword, c.key ≠ encode "price")
    ∧ (∀ k : Str, keyword = some k → ∀ e : EditionType,
        (QdrantCondition.matchValue (encode "edition_type") (editionTypeStr e)
            ∈ queryBooksMust q budget keyword
          ↔ resolveEdition k = some e)) := by
  rw [explicit_path_taken q budget keyword h, explicitMust_eq]
  have hka : encode "availability" ≠ encode "edition_type" := by decide
  have hre : resolveEdition [] = none := by decide
  have hka : encode "edition_type" ≠ encode "availability" := by decide
  have hpa : encode "availability" ≠ encode "price" := by decide
  have hea : encode "edition_type" ≠ encode "price" := by decide
  refine ⟨by simp, ?_, ?_, ?_⟩
  · rintro b rfl hpos
    simp [if_pos hpos]
  · rintro b rfl hneg c hc
    rcases keyword with _ | k
    · simp [if_neg hneg] at hc
      simp [hc, inPrintCond, QdrantCondition.key, hpa]
    · by_cases hk : k = []
      · subst hk
        simp [if_neg hneg] at hc
        simp [hc, inPrintCond, QdrantCondition.key, hpa]
      · cases hrk : resolveEdition k <;>
          simp [if_neg hneg, List.isEmpty_iff, hk, hrk] at hc
        · simp [hc, inPrintCond, QdrantCondition.key, hpa]
        · rcases hc with rfl | rfl <;>
            simp [inPrintCond, QdrantCondition.key, hpa, hea]
  · rintro k rfl e
    have hiff : ∀ e' : EditionType, (editionTypeStr e = editionTypeStr e' ↔ e' = e) :=
      fun e' => ⟨fun hh => (editionTypeStr_injective e e' hh).symm, fun hh => by rw [hh]⟩
    by_cases hk : k.isEmpty
    · have hknil : k = [] := List.isEmpty_iff.mp hk
      subst hknil
      rcases budget with _ | b
      · simp [hk, inPrintCond, hre, hka]
      · by_cases hb : 0 < b <;> simp [hk, hb, inPrintCond, hre, hka]
    · cases hrk : resolveEdition k <;> rcases budget with _ | b
      · simp [hk, hrk, inPrintCond, hka]
      · by_cases hb : 0 < b <;> simp [hk, hrk, hb, inPrintCond, hka]
      · simp [hk, hrk, inPrintCond, hka, hiff]
      · by_cases hb : 0 < b <;> simp [hk, hrk, hb, inPrintCond, hka, hiff]

/-- C4 (witness): with budget `150` and keyword `" Signed "` the explicit
path yields the availability default, the price ceiling `150`, and the
`Collector` edition condition (the keyword resolves after trimming and
lowercasing). -/
theorem explicit_path_resolution_witness :
    ((some (150 : ℚ)).isSome = true ∨ (some (encode " Signed ")).isSome = true)
    ∧ inPrintCond ∈ queryBooksMust (encode "spooky") (some 150) (some (encode " Signed "))
    ∧ QdrantCondition.rangeLte (encode "price") 150
        ∈ queryBooksMust (encode "spooky") (some 150) (some (encode " Signed "))
    ∧ QdrantCondition.matchValue (encode "edition_type") (editionTypeStr EditionType.Collector)
        ∈ queryBooksMust (encode "spooky") (some 150) (some (encode " Signed ")) :=
  ⟨Or.inl rfl,
   (explicit_path_resolution (encode "spooky") (some 150) (some (encode " Signed "))
       (Or.inl rfl)).1,
   (explicit_path_resolution (encode "spooky") (some 150) (some (encode " Signed "))
       (Or.inl rfl)).2.1 150 rfl (by norm_num),
   ((explicit_path_resolution (encode "spooky") (some 150) (some (encode " Signed "))
       (Or.inl rfl)).2.2.2 (encode " Signed ") rfl EditionType.Collector).mpr (by decide)⟩

-- ── C5 ───────────────────────────────────────────────────────────────────

theorem editionSortedKeys_eq :
    editionSortedKeys =
      [encode "collector's edition", encode "lettered edition", encode "traycase edition",
       encode "limited numbered", encode "lettered copies", encode "limited edition",
       encode "artist edition", encode "signed edition", encode "deluxe edition",
       encode "lettered copy", encode "hand-numbered", encode "hand numbered",
       encode "trade edition", encode "limited run", encode "hand-signed",
       encode "collector's", encode "remarqued", encode "traycased", encode "collector",
       encode "lettered", encode "traycase", encode "numbered", encode "standard",
       encode "limited", encode "artist", encode "signed", encode "deluxe",
       encode "trade"] := by
  decide

/-- C5 (counterexample): the claim's universal "for every query containing
`lettered edition` … yielding the Lettered category" fails: the 19-character
key `collector's edition` is tested before the 16-character
`lettered edition`, so this query resolves to `Collector`. -/
theorem lettered_edition_shadowed_by_longer_key :
    strContains (toLower (encode "a collector's edition and lettered edition"))
        (encode "lettered edition") = true
    ∧ extractEditionType (encode "a collector's edition and lettered edition")
        = some EditionType.Collector
    ∧ extractEditionType (encode "a collector's edition and lettered edition")
        ≠ some EditionType.Lettered := by
  decide

/-- C5 (amended): `extractEditionType` tests the edition-synonym keys
against the lowercased query in descending key-length order and returns
the canonical category of the first key found as a substring; for every
query whose lowercased form contains `lettered edition` but not the single
longer key `collector's edition`, the longer phrase `lettered edition`
wins before the shorter `lettered` it contains, yielding the Lettered
category. -/
theorem lettered_edition_precedence (q : Str)
    (h1 : strContains (toLower q) (encode "lettered edition") = true)
    (h2 : strContains (toLower q) (encode "collector's edition") = false) :
    editionSortedKeys.Sorted (fun a b => b.length ≤ a.length)
    ∧ extractEditionType q = some EditionType.Lettered := by
  constructor
  · rw [editionSortedKeys_eq]
    decide
  · show firstEditionKey (toLower q) editionSortedKeys = some EditionType.Lettered
    rw [editionSortedKeys_eq]
    simp only [firstEditionKey, h1, h2, Bool.false_eq_true, if_false, if_true]
    decide

/-- C5 (witness): a concrete query containing `lettered edition` (and the
shorter `lettered`, and `signed`) but not `collector's edition` resolves to
Lettered. -/
theorem lettered_edition_precedence_witness :
    strContains (toLower (encode "a signed lettered edition")) (encode "lettered edition") = true
    ∧ strContains (toLower (encode "a signed lettered edition")) (encode "collector's edition")
        = false
    ∧ extractEditionType (encode "a signed lettered edition") = some EditionType.Lettered :=
  ⟨by decide, by decide,
   (lettered_edition_precedence (encode "a signed lettered edition")
       (by decide) (by decide)).2⟩

-- ── C6 ───────────────────────────────────────────────────────────────────

theorem genreScan_pairwise (q : Str) (vocab : List Str) : ∀ acc : List Str,
    acc.Pairwise (fun a b => strContains a b = false ∧ strContains b a = false) →
    (genreScan q vocab acc).Pairwise
      (fun a b => strContains a b = false ∧ strContains b a = false) := by
  induction vocab with
  | nil => intro acc hacc; simpa [genreScan] using hacc
  | cons g rest ih =>
    intro acc hacc
    simp only [genreScan]
    split_ifs with hcond
    · refine ih (acc ++ [g]) ?_
      rw [List.pairwise_append]
      refine ⟨hacc, List.pairwise_singleton _ _, ?_⟩
      intro m hm g' hg'
      rw [List.mem_singleton] at hg'
      subst hg'
      simp only [Bool.and_eq_true] at hcond
      have h2 := hcond.2
      rw [Bool.not_eq_true', List.any_eq_false] at h2
      have h3 := h2 m hm
      rw [Bool.or_eq_true, not_or] at h3
      exact ⟨Bool.not_eq_true _ |>.mp h3.1, Bool.not_eq_true _ |>.mp h3.2⟩
    · exact ih acc hacc

theorem genreScan_ne_nil (q : Str) (vocab : List Str) : ∀ acc : List Str,
    acc ≠ [] → genreScan q vocab acc ≠ [] := by
  induction vocab with
  | nil => intro acc h; simpa [genreScan] using h
  | cons g rest ih =>
    intro acc h
    simp only [genreScan]
    split_ifs with hcond
    · exact ih (acc ++ [g]) (by simp)
    · exact ih acc h

theorem genreScan_nil_iff (q : Str) (vocab : List Str) :
    genreScan q vocab [] = [] ↔ ∀ g ∈ vocab, strContains q g = false := by
  induction vocab with
  | nil => simp [genreScan]
  | cons g rest ih =>
    simp only [genreScan, List.any_nil, Bool.not_false, Bool.and_true]
    cases hg : strContains q g
    · simpa [hg] using ih
    · simp only [if_true, List.mem_cons]
      constructor
      · intro hcontra
        exact absurd hcontra (genreScan_ne_nil q rest [g] (by simp))
      · intro hall
        exact absurd hg (by simpa using hall g (Or.inl rfl))

/-- C6: For every query, `extractGenreTags` returns no value exactly when
no vocabulary phrase occurs in the lowercased query; and whenever it
returns a value, that value is a non-empty list in which no two tags are
such that one is a substring of the other. -/
theorem genre_tags_no_substring_pairs (q : Str) :
    (extractGenreTags q = none
       ↔ ∀ g ∈ GENRE_VOCABULARY, strContains (toLower q) g = false)
    ∧ ∀ l, extractGenreTags q = some l →
        l ≠ []
        ∧ l.Pairwise (fun a b => strContains a b = false ∧ strContains b a = false) := by
  constructor
  · by_cases hm : 0 < (genreScan (toLower q) GENRE_VOCABULARY []).length
    · simp only [extractGenreTags, if_pos hm]
      constructor
      · intro hcontra; exact absurd hcontra (by simp)
      · intro hall
        have : genreScan (toLower q) GENRE_VOCABULARY [] = [] :=
          (genreScan_nil_iff (toLower q) GENRE_VOCABULARY).mpr hall
        rw [this] at hm
        exact absurd hm (by simp)
    · simp only [extractGenreTags, if_neg hm]
      have hnil : genreScan (toLower q) GENRE_VOCABULARY [] = [] := by
        rcases h : genreScan (toLower q) GENRE_VOCABULARY [] with _ | ⟨a, l⟩
        · rfl
        · rw [h] at hm; exact absurd (by simp) hm
      simp only [true_iff]
      exact (genreScan_nil_iff (toLower q) GENRE_VOCABULARY).mp hnil
  · intro l hl
    by_cases hm : 0 < (genreScan (toLower q) GENRE_VOCABULARY []).length
    · simp only [extractGenreTags, if_pos hm, Option.some.injEq] at hl
      subst hl
      refine ⟨?_, genreScan_pairwise (toLower q) GENRE_VOCABULARY [] (List.Pairwise.nil)⟩
      intro hnil
      rw [hnil] at hm
      exact absurd hm (by simp)
    · simp only [extractGenreTags, if_neg hm] at hl
      exact absurd hl (by simp)

/-- C6 (witness): on a concrete query the extractor returns the non-empty,
substring-free pair of tags `["cosmic horror", "fantasy"]`. -/
theorem genre_tags_no_substring_pairs_witness :
    extractGenreTags (encode "cosmic horror and fantasy books")
        = some [encode "cosmic horror", encode "fantasy"]
    ∧ [encode "cosmic horror", encode "fantasy"] ≠ ([] : List Str)
    ∧ ([encode "cosmic horror", encode "fantasy"] : List Str).Pairwise
        (fun a b => strContains a b = false ∧ strContains b a = false) :=
  ⟨by decide,
   ((genre_tags_no_substring_pairs (encode "cosmic horror and fantasy books")).2
       [encode "cosmic horror", encode "fantasy"] (by decide)).1,
   ((genre_tags_no_substring_pairs (encode "cosmic horror and fantasy books")).2
       [encode "cosmic horror", encode "fantasy"] (by decide)).2⟩

-- ── C7 ───────────────────────────────────────────────────────────────────

theorem isDigit_lowerChar (c : Nat) : isDigit (lowerChar c) = isDigit c := by
  unfold lowerChar
  split_ifs <;>
    first
    | rfl
    | (rw [Bool.eq_iff_iff]
       simp only [isDigit, Bool.and_eq_true, decide_eq_true_eq]
       omega)

theorem noDigit_toLower (q : Str) (h : ∀ c ∈ q, isDigit c = false) :
    ∀ c ∈ toLower q, isDigit c = false := by
  intro c hc
  rw [toLower, List.mem_map] at hc
  obtain ⟨c', hc', rfl⟩ := hc
  rw [isDigit_lowerChar]
  exact h c' hc'

theorem noDigit_skipSpaces (s : Str) (h : ∀ c ∈ s, isDigit c = false) :
    ∀ c ∈ skipSpaces s, isDigit c = false := by
  induction s with
  | nil => intro c hc; exact absurd hc (by simp [skipSpaces])
  | cons a rest ih =>
    rw [show skipSpaces (a :: rest)
          = if isSpace a then skipSpaces rest else a :: rest from rfl]
    split_ifs
    · exact ih (fun c hc => h c (List.mem_cons_of_mem a hc))
    · exact h

theorem noDigit_drop (s : Str) (n : Nat) (h : ∀ c ∈ s, isDigit c = false) :
    ∀ c ∈ s.drop n, isDigit c = false :=
  fun c hc => h c (List.drop_subset n s hc)

theorem afterLit_noDigit (w : String) (s r : Str) (h : ∀ c ∈ s, isDigit c = false)
    (he : afterLit w s = some r) : ∀ c ∈ r, isDigit c = false := by
  unfold afterLit at he
  split_ifs at he
  cases he
  exact noDigit_drop s _ h

theorem spaces1_noDigit (s r : Str) (h : ∀ c ∈ s, isDigit c = false)
    (he : spaces1 s = some r) : ∀ c ∈ r, isDigit c = false := by
  rcases s with _ | ⟨a, rest⟩
  · cases he
  · simp only [spaces1] at he
    split_ifs at he
    cases he
    exact noDigit_skipSpaces rest (fun c hc => h c (List.mem_cons_of_mem a hc))

theorem afterWords_noDigit (ws : List String) : ∀ s r : Str,
    (∀ c ∈ s, isDigit c = false) → afterWords ws s = some r →
    ∀ c ∈ r, isDigit c = false := by
  induction ws with
  | nil => intro s r h he; cases he; exact h
  | cons w ws ih =>
    intro s r h he
    rcases ws with _ | ⟨w2, ws2⟩
    · exact afterLit_noDigit w s r h he
    · simp only [afterWords, Option.bind_eq_bind, Option.bind_eq_some] at he
      obtain ⟨r1, he1, he2⟩ := he
      obtain ⟨r2, he3, he4⟩ := he2
      exact ih r2 r (spaces1_noDigit r1 r2 (afterLit_noDigit w s r1 h he1) he3) he4

theorem triggerEnds_noDigit (s : Str) (h : ∀ c ∈ s, isDigit c = false) :
    ∀ r ∈ triggerEnds s, ∀ c ∈ r, isDigit c = false := by
  intro r hr
  unfold triggerEnds at hr
  rw [List.mem_filterMap] at hr
  obtain ⟨o, ho, hid⟩ := hr
  rw [id_eq] at hid
  subst hid
  simp only [List.mem_cons, List.not_mem_nil, or_false] at ho
  rcases ho with ho | ho | ho | ho | ho | ho | ho | ho | ho | ho | ho
  · exact afterLit_noDigit "under" s r h ho.symm
  · exact afterWords_noDigit ["less", "than"] s r h ho.symm
  · exact afterLit_noDigit "below" s r h ho.symm
  · exact afterWords_noDigit ["cheaper", "than"] s r h ho.symm
  · exact afterWords_noDigit ["up", "to"] s r h ho.symm
  · exact afterWords_noDigit ["no", "more", "than"] s r h ho.symm
  · exact afterWords_noDigit ["at", "most"] s r h ho.symm
  · exact afterLit_noDigit "maximum" s r h ho.symm
  · exact afterLit_noDigit "max" s r h ho.symm
  · have hb := ho.symm
    rcases h1 : afterLit "budget" s with _ | r1 <;> rw [h1] at hb
    · cases hb
    · simp only [Option.some_bind] at hb
      rcases h2 : spaces1 r1 with _ | r2 <;> rw [h2] at hb
      · cases hb
      · simp only [Option.some_bind] at hb
        have hr1 := afterLit_noDigit "budget" s r1 h h1
        have hr2 := spaces1_noDigit r1 r2 hr1 h2
        rcases h3 : afterLit "of" r2 with _ | r3 <;> rw [h3] at hb
        · rcases h4 : afterLit "is" r2 with _ | r4 <;> rw [h4] at hb
          · exact afterLit_noDigit ":" r2 r hr2 hb
          · cases hb
            exact afterLit_noDigit "is" r2 r hr2 h4
        · cases hb
          exact afterLit_noDigit "of" r2 r hr2 h3
  · exact afterLit_noDigit "<" s r h ho.symm

theorem parseNumberWithRest_noDigit (s : Str) (h : ∀ c ∈ s, isDigit c = false) :
    parseNumberWithRest s = none := by
  unfold parseNumberWithRest
  rcases s with _ | ⟨c, rest⟩
  · rfl
  · simp [h c (List.mem_cons_self c rest)]

theorem afterTrigger_noDigit (s : Str) (h : ∀ c ∈ s, isDigit c = false) :
    afterTrigger s = none := by
  have h1 := noDigit_skipSpaces s h
  rcases hs : skipSpaces s with _ | ⟨c, rest⟩ <;> rw [hs] at h1 <;>
    simp only [afterTrigger, hs]
  · rfl
  · split_ifs with hc
    · rw [parseNumberWithRest_noDigit _
        (noDigit_skipSpaces rest (fun c' hc' => h1 c' (List.mem_cons_of_mem c hc')))]
      rfl
    · rw [parseNumberWithRest_noDigit _ h1]
      rfl

theorem foldr_triggers_none (L : List Str) (h : ∀ r ∈ L, ∀ c ∈ r, isDigit c = false) :
    L.foldr (fun r acc => match afterTrigger r with | some v => some v | none => acc)
      (none : Option ℚ) = none := by
  induction L with
  | nil => rfl
  | cons r L ih =>
    simp only [List.foldr_cons]
    rw [afterTrigger_noDigit r (h r (List.mem_cons_self _ _))]
    exact ih (fun r' hr' => h r' (List.mem_cons_of_mem _ hr'))

theorem tryPass1At_noDigit (s : Str) (h : ∀ c ∈ s, isDigit c = false) :
    tryPass1At s = none := by
  unfold tryPass1At
  exact foldr_triggers_none (triggerEnds s) (triggerEnds_noDigit s h)

theorem scanPass1_noDigit (s : Str) (h : ∀ c ∈ s, isDigit c = false) :
    scanPass1 s = none := by
  induction s with
  | nil => rfl
  | cons c rest ih =>
    simp only [scanPass1]
    rw [tryPass1At_noDigit (c :: rest) h]
    exact ih (fun c' hc' => h c' (List.mem_cons_of_mem c hc'))

theorem tryPass2At_noDigit (s : Str) (h : ∀ c ∈ s, isDigit c = false) :
    tryPass2At s = none := by
  rcases s with _ | ⟨c, rest⟩
  · rfl
  · simp only [tryPass2At]
    split_ifs with hc
    · rw [parseNumberWithRest_noDigit _
        (noDigit_skipSpaces rest (fun c' hc' => h c' (List.mem_cons_of_mem c hc')))]
    · rfl

theorem scanPass2_noDigit (s : Str) (h : ∀ c ∈ s, isDigit c = false) :
    scanPass2 s = none := by
  induction s with
  | nil => rfl
  | cons c rest ih =>
    simp only [scanPass2]
    rw [tryPass2At_noDigit (c :: rest) h]
    exact ih (fun c' hc' => h c' (List.mem_cons_of_mem c hc'))

/-- C7: For every query string containing no decimal digit, `extractPrice`
returns no value — the absence of a price match is an absent value, never
an error — and thus no price filter condition is produced by
`extractFilters`. -/
theorem no_digit_no_price (q : Str) (h : ∀ c ∈ q, isDigit c = false) :
    extractPrice q = none
    ∧ ∀ c ∈ (extractFilters q).qdrantMust, c.key ≠ encode "price" := by
  have hl := noDigit_toLower q h
  have hp : extractPrice q = none := by
    simp only [extractPrice]
    rw [scanPass1_noDigit _ hl, scanPass2_noDigit _ hl]
  refine ⟨hp, ?_⟩
  rw [extractFilters_eq]
  intro c hc
  have hkp : encode "publisher" ≠ encode "price" := by decide
  have hka : encode "author" ≠ encode "price" := by decide
  have hke : encode "edition_type" ≠ encode "price" := by decide
  have hkv : encode "availability" ≠ encode "price" := by decide
  have hkg : encode "genre_tags" ≠ encode "price" := by decide
  rw [hp] at hc
  simp only [slotConds, List.mem_append] at hc
  rcases hc with ((((hc | hc) | hc) | hc) | hc) | hc <;>
    first
    | (rcases hx : extractPublisher q with _ | x <;> rw [hx] at hc <;>
        simp_all [QdrantCondition.key])
    | (rcases hx : extractAuthor q with _ | x <;> rw [hx] at hc <;>
        simp_all [QdrantCondition.key])
    | (rcases hx : extractEditionType q with _ | x <;> rw [hx] at hc <;>
        simp_all [QdrantCondition.key])
    | (rcases hx : extractAvailability q with _ | x <;> rw [hx] at hc <;>
        simp_all [QdrantCondition.key])
    | (rcases hx : extractGenreTags q with _ | x <;> rw [hx] at hc <;>
        simp_all [QdrantCondition.key])
    | simp_all

/-- C7 (witness): the vague budget word `cheap` alone yields no price value
and no price condition. -/
theorem no_digit_no_price_witness :
    (∀ c ∈ encode "cheap horror books", isDigit c = false)
    ∧ extractPrice (encode "cheap horror books") = none :=
  ⟨by decide, (no_digit_no_price (encode "cheap horror books") (by decide)).1⟩

-- ── C8 ───────────────────────────────────────────────────────────────────

/-- C8: Every dimension extractor and `extractFilters` is a total function
of the query string (each is a Lean `def` returning an optional value —
none can throw): for every query the analysis echoes the original query
and carries a confidence in `[0, 1]` with at most six conditions, and on
the empty string every extractor returns "no value" and `extractFilters`
returns the valid all-absent outcome — zero conditions, confidence `0`. -/
theorem extractors_total (q : Str) :
    (extractFilters q).analysis.originalQuery = q
    ∧ 0 ≤ (extractFilters q).analysis.confidence
    ∧ (extractFilters q).analysis.confidence ≤ 1
    ∧ (extractFilters q).qdrantMust.length ≤ 6
    ∧ extractPublisher (encode "") = none
    ∧ extractAuthor (encode "") = none
    ∧ extractEditionType (encode "") = none
    ∧ extractPrice (encode "") = none
    ∧ extractAvailability (encode "") = none
    ∧ extractGenreTags (encode "") = none
    ∧ (extractFilters (encode "")).qdrantMust = []
    ∧ (extractFilters (encode "")).analysis.confidence = 0 := by
  refine ⟨rfl, ?_, ?_, ?_, by decide, by decide, by decide, by decide, by decide,
    by decide, by decide, ?_⟩
  · rw [extractFilters_eq]
    exact div_nonneg (Nat.cast_nonneg _) (by norm_num [FILTER_SLOT_COUNT])
  · rw [extractFilters_eq]
    show (_ : ℚ) / (FILTER_SLOT_COUNT : ℚ) ≤ 1
    rw [slot_cast, div_le_one (by norm_num : (0 : ℚ) < 6)]
    exact_mod_cast populatedOf_le_six _ _ _ _ _ _
  · rw [extractFilters_eq]
    show (slotConds _ _ _ _ _ _).length ≤ 6
    rw [slotConds_length]
    exact populatedOf_le_six _ _ _ _ _ _
  · rw [extractFilters_eq]
    show (_ : ℚ) / (FILTER_SLOT_COUNT : ℚ) = 0
    rw [show populatedOf (extractPublisher (encode "")) (extractAuthor (encode ""))
        (extractEditionType (encode "")) (extractPrice (encode ""))
        (extractAvailability (encode "")) (extractGenreTags (encode "")) = 0 by decide]
    norm_num

-- ── C9 ───────────────────────────────────────────────────────────────────

theorem lowerChar_idem (c : Nat) : lowerChar (lowerChar c) = lowerChar c := by
  unfold lowerChar
  split_ifs <;> omega

theorem toLower_idem (s : Str) : toLower (toLower s) = toLower s := by
  simp only [toLower, List.map_map]
  exact List.map_congr_left (fun a _ => lowerChar_idem a)

/-- C9: The publisher, edition-type, availability and genre-tag extractors
are case-insensitive: each returns on `q` the same result as on the
lowercased form of `q` — unlike the author extractor, whose phrase
patterns require capitalisation (shown by a concrete query on which
lowercasing changes the result). -/
theorem extractors_case_insensitive (q : Str) :
    extractPublisher (toLower q) = extractPublisher q
    ∧ extractEditionType (toLower q) = extractEditionType q
    ∧ extractAvailability (toLower q) = extractAvailability q
    ∧ extractGenreTags (toLower q) = extractGenreTags q
    ∧ extractAuthor (toLower (encode "by John Smith"))
        ≠ extractAuthor (encode "by John Smith") := by
  refine ⟨?_, ?_, ?_, ?_, by decide⟩
  · simp only [extractPublisher, toLower_idem]
  · simp only [extractEditionType, toLower_idem]
  · simp only [extractAvailability, toLower_idem]
  · simp only [extractGenreTags, toLower_idem]

-- ── C10 ──────────────────────────────────────────────────────────────────

/-- C10: On the explicit-parameters path, the produced condition list has
the `in_print` availability condition as its first element, contains at
most three conditions, and every condition's key is one of `availability`,
`price`, `edition_type` — publisher, author and genre-tag conditions are
never produced on this path. -/
theorem explicit_path_shape (q : Str) (budget : Option ℚ) (keyword : Option Str)
    (h : budget.isSome ∨ keyword.isSome) :
    (queryBooksMust q budget keyword).head? = some inPrintCond
    ∧ (queryBooksMust q budget keyword).length ≤ 3
    ∧ ∀ c ∈ queryBooksMust q budget keyword,
        c.key = encode "availability" ∨ c.key = encode "price"
          ∨ c.key = encode "edition_type" := by
  rw [explicit_path_taken q budget keyword h, explicitMust_eq]
  have hB : ∀ c' ∈ (match budget with
      | some b => if 0 < b then [QdrantCondition.rangeLte (encode "price") b] else []
      | none => ([] : List QdrantCondition)), c'.key = encode "price" := by
    rcases budget with _ | b
    · intro c' hc'; exact absurd hc' (List.not_mem_nil _)
    · intro c' hc'
      have hc2 : c' ∈ (if 0 < b then [QdrantCondition.rangeLte (encode "price") b] else []) :=
        hc'
      split_ifs at hc2
      · rw [List.mem_singleton] at hc2; subst hc2; rfl
      · exact absurd hc2 (List.not_mem_nil _)
  have hC : ∀ c' ∈ (match keyword with
      | some k =>
        if !k.isEmpty then
          match resolveEdition k with
          | some e => [QdrantCondition.matchValue (encode "edition_type") (editionTypeStr e)]
          | none => []
        else []
      | none => ([] : List QdrantCondition)), c'.key = encode "edition_type" := by
    rcases keyword with _ | k
    · intro c' hc'; exact absurd hc' (List.not_mem_nil _)
    · intro c' hc'
      have hc2 : c' ∈ (if !k.isEmpty then
          (match resolveEdition k with
           | some e => [QdrantCondition.matchValue (encode "edition_type") (editionTypeStr e)]
           | none => [])
          else []) := hc'
      split_ifs at hc2
      · rcases hrk : resolveEdition k with _ | e <;> rw [hrk] at hc2
        · exact absurd hc2 (List.not_mem_nil _)
        · have hc3 : c'
              ∈ [QdrantCondition.matchValue (encode "edition_type") (editionTypeStr e)] := hc2
          rw [List.mem_singleton] at hc3; subst hc3; rfl
      · exact absurd hc2 (List.not_mem_nil _)
  have hlB : (match budget with
      | some b => if 0 < b then [QdrantCondition.rangeLte (encode "price") b] else []
      | none => ([] : List QdrantCondition)).length ≤ 1 := by
    rcases budget with _ | b
    · simp
    · show (if 0 < b then [QdrantCondition.rangeLte (encode "price") b] else []).length ≤ 1
      split_ifs <;> simp
  have hlC : (match keyword with
      | some k =>
        if !k.isEmpty then
          match resolveEdition k with
          | some e => [QdrantCondition.matchValue (encode "edition_type") (editionTypeStr e)]
          | none => []
        else []
      | none => ([] : List QdrantCondition)).length ≤ 1 := by
    rcases keyword with _ | k
    · simp
    · show (if !k.isEmpty then
          (match resolveEdition k with
           | some e => [QdrantCondition.matchValue (encode "edition_type") (editionTypeStr e)]
           | none => [])
          else []).length ≤ 1
      split_ifs
      · rcases resolveEdition k with _ | e <;> simp
      · simp
  refine ⟨rfl, ?_, ?_⟩
  · simp only [List.length_append, List.length_singleton]
    omega
  · intro c hc
    simp only [List.append_assoc, List.mem_append, List.mem_singleton] at hc
    rcases hc with hc | hc | hc
    · subst hc; left; rfl
    · right; left; exact hB c hc
    · right; right; exact hC c hc

/-- C10 (witness): with budget `100` and keyword `lettered`, the explicit
path list starts with the `in_print` condition and has at most three
conditions. -/
theorem explicit_path_shape_witness :
    ((some (100 : ℚ)).isSome = true ∨ (some (encode "lettered")).isSome = true)
    ∧ (queryBooksMust (encode "dark books") (some 100) (some (encode "lettered"))).head?
        = some inPrintCond
    ∧ (queryBooksMust (encode "dark books") (some 100) (some (encode "lettered"))).length ≤ 3 :=
  ⟨Or.inl rfl,
   (explicit_path_shape (encode "dark books") (some 100) (some (encode "lettered"))
       (Or.inl rfl)).1,
   (explicit_path_shape (encode "dark books") (some 100) (some (encode "lettered"))
       (Or.inl rfl)).2.1⟩

end FinePress
